import Mathlib

/-!
# Verification of `reqwest-hickory-resolver` (`src/lib.rs`)

Shallow embedding of the crate's single source file.  The crate wraps a
hickory `TokioResolver` behind a `OnceLock` cell shared through an `Arc`,
and implements reqwest's `Resolve` trait: on each call it clones the
handle, lazily constructs the underlying resolver, performs the lookup,
optionally shuffles the returned addresses and maps every IP address to a
socket address with port 0.

External collaborators (hickory-resolver, reqwest, rand, the OS) are
modelled at their interface boundary:
* `std::net::IpAddr` is an opaque value (`ℕ` here);
* hickory's `Resolver::builder` reads the ambient system DNS
  configuration; we pass the outcome of that discovery in explicitly as an
  `Except Unit SystemConf` parameter;
* the DNS lookup itself is an opaque function from the resolver to an
  `Except LookupError (List IpAddr)`;
* `rand::rngs::SmallRng` is a deterministic pure generator state, and
  `SliceRandom::shuffle` is the decreasing-index Fisher-Yates loop
  (`for i in (1..len).rev() { swap(i, random_range(..=i)) }`) that rand
  implements.
-/

namespace ReqwestHickory

/-- Opaque model of `std::net::IpAddr`: only identity of addresses matters. -/
abbrev IpAddr := ℕ

/-- Model of `std::net::SocketAddr` as built by `SocketAddr::new(addr, port)`. -/
structure SocketAddr where
  ip : IpAddr
  port : ℕ
deriving DecidableEq

/-- Opaque model of `hickory_resolver::config::ResolverOpts` (timeouts, retry
counts, ...): only identity of the options value matters to the adapter. -/
structure ResolverOpts where
  knobs : ℕ
deriving DecidableEq

/-- `ResolverOpts::default()`. -/
def ResolverOpts.default : ResolverOpts := ⟨0⟩

/-- Opaque model of `hickory_resolver::config::ResolverConfig`. -/
structure ResolverConfig where
  nameservers : ℕ
deriving DecidableEq

/-- `ResolverConfig::default()`, the hard-coded fallback configuration. -/
def ResolverConfig.default : ResolverConfig := ⟨0⟩

/-- The `(config, options)` pair produced by hickory's system configuration
discovery (reading `/etc/resolv.conf`). -/
structure SystemConf where
  config : ResolverConfig
  options : ResolverOpts
deriving DecidableEq

/-- Model of `hickory_resolver::TokioResolver`: the state `ResolverBuilder::build`
bakes in — the configuration and options the resolver was built with. -/
structure TokioResolver where
  config : ResolverConfig
  options : ResolverOpts
deriving DecidableEq

/-- Opaque model of a hickory lookup error (NXDOMAIN, timeout, ...). -/
structure LookupError where
  code : ℕ
deriving DecidableEq

/-- Model of the boxed error returned by `resolve`: the `?` operator wraps the
underlying hickory error unchanged. -/
inductive ResolveError where
  | lookup : LookupError → ResolveError
deriving DecidableEq

/-- Deterministic model of `rand::rngs::SmallRng`: a pure generator state.
Stepping the generator is modelled by `SmallRng.next`. -/
structure SmallRng where
  seed : ℕ
deriving DecidableEq

/-- One step of the generator: output a raw value and the successor state
(a 64-bit linear congruential step; the concrete constants are irrelevant,
only determinism in the state matters). -/
def SmallRng.next (g : SmallRng) : ℕ × SmallRng :=
  (g.seed, ⟨(g.seed * 6364136223846793005 + 1442695040888963407) % 2 ^ 64⟩)

/-- `rng.random_range(..=i)`: a value in `0..=i` plus the advanced generator. -/
def SmallRng.randRangeLe (g : SmallRng) (i : ℕ) : Fin (i + 1) × SmallRng :=
  let (v, g') := g.next
  (⟨v % (i + 1), Nat.mod_lt _ (Nat.succ_pos i)⟩, g')

/-- The fields of `HickoryResolver` other than the shared cell:

```rust
pub struct HickoryResolver {
    state: Arc<OnceLock<TokioResolver>>,
    opts: Option<ResolverOpts>,
    rng: Option<rand::rngs::SmallRng>,
}
```

The contents of the `Arc<OnceLock<TokioResolver>>` are shared by every clone
of the handle, so they are modelled as a separate `Option TokioResolver`
value threaded through the operations (see `onceLockGetOrInit` and
`HickoryResolver.resolveModel`); the per-clone fields live here. -/
structure HickoryResolver where
  opts : Option ResolverOpts := none
  rng : Option SmallRng := none
deriving DecidableEq

/-- `HickoryResolver::default()`: empty cell, no options, no rng. -/
def HickoryResolver.defaultHandle : HickoryResolver := {}

/-- `HickoryResolver::with_options`:

```rust
pub fn with_options(mut self, opts: ResolverOpts) -> Self {
    self.opts = Some(opts);
    self
}
``` -/
def HickoryResolver.with_options (self : HickoryResolver) (opts : ResolverOpts) :
    HickoryResolver :=
  { self with opts := some opts }

/-- `HickoryResolver::with_shuffle`:

```rust
pub fn with_shuffle(mut self, shuffle: bool) -> Self {
    if shuffle {
        self.rng = Some(rand::rngs::SmallRng::from_os_rng());
    }
    self
}
```

`SmallRng::from_os_rng()` seeds from OS entropy; the seed it would produce is
passed in as the `osRng` parameter.  Note the source has no `else` branch:
`with_shuffle(false)` leaves a previously installed generator in place. -/
def HickoryResolver.with_shuffle (self : HickoryResolver) (shuffle : Bool)
    (osRng : SmallRng) : HickoryResolver :=
  if shuffle then { self with rng := some osRng } else self

/-- Model of `hickory_resolver::ResolverBuilder`: configuration plus options,
consumed by `build`. -/
structure ResolverBuilder where
  config : ResolverConfig
  options : ResolverOpts
deriving DecidableEq

/-- `Resolver::builder(provider)`: reads the system DNS configuration; on
success the builder starts from the discovered `(config, options)` pair, on
failure the error is returned.  The discovery outcome is the `sys` input. -/
def resolverBuilder (sys : Except Unit SystemConf) : Except Unit ResolverBuilder :=
  sys.map fun s => { config := s.config, options := s.options }

/-- `Resolver::builder_with_config(config, provider)`: a builder from an
explicit configuration, with default options.  Total — it cannot fail. -/
def resolverBuilderWithConfig (config : ResolverConfig) : ResolverBuilder :=
  { config := config, options := ResolverOpts.default }

/-- `ResolverBuilder::build()`: total, bakes the builder state into the
resolver. -/
def ResolverBuilder.build (b : ResolverBuilder) : TokioResolver :=
  { config := b.config, options := b.options }

/-- `mem::replace(dest: &mut T, src: T) -> T`: the destination place receives
`src` and its previous contents are returned.  The first component is the new
contents of the destination place, the second the returned old value. -/
def memReplace {α : Type} (dest : α) (src : α) : α × α := (src, dest)

/-- The two `ResolverOpts` places alive during the options statement of
`init_resolver`: the builder's options field and the local `opt` binding.
A `&mut ResolverOpts` is modelled as the place it points to. -/
inductive OptsPlace where
  | builderOptions
  | localOpt
deriving DecidableEq

/-- The statement

```rust
if let Some(mut opt) = self.opts.clone() {
    let _ = mem::replace(&mut builder.options_mut(), &mut opt);
}
```

`builder.options_mut()` returns a `&mut ResolverOpts` pointing at the
builder's options; that reference is held in a *temporary*, and the `&mut`
in front of the call borrows the temporary itself.  `mem::replace` therefore
operates on the temporary: it stores the reference `&mut opt` into it and
returns the temporary's previous contents (the reference into the builder),
which `let _ =` discards.  Neither `ResolverOpts` place is ever written
through either reference, so the builder's options are left untouched. -/
def applyOptsStmt (builder : ResolverBuilder) : Option ResolverOpts → ResolverBuilder
  | none => builder
  | some o =>
    -- `opt`, the binding introduced by the `if let` pattern
    let opt : ResolverOpts := o
    -- the temporary holding the reference returned by `builder.options_mut()`
    let t : OptsPlace := OptsPlace.builderOptions
    -- `mem::replace(&mut t, &mut opt)`
    let (t2, old) := memReplace t OptsPlace.localOpt
    -- `let _ = ...` drops the returned reference; the temporary dies with the
    -- statement; `opt` is dropped at the end of the `if let` body
    let _ := t2
    let _ := old
    let _ := opt
    -- no write reached `builder.options`, so the builder is unchanged
    builder

/-- `HickoryResolver::init_resolver`:

```rust
fn init_resolver(&self) -> TokioResolver {
    let mut builder =
        Resolver::builder(TokioConnectionProvider::default()).unwrap_or_else(|_| {
            Resolver::builder_with_config(
                ResolverConfig::default(),
                TokioConnectionProvider::default(),
            )
        });
    if let Some(mut opt) = self.opts.clone() {
        let _ = mem::replace(&mut builder.options_mut(), &mut opt);
    }
    builder.build()
}
```

`sys` is the outcome of the system configuration discovery performed inside
`Resolver::builder`. -/
def HickoryResolver.init_resolver (self : HickoryResolver)
    (sys : Except Unit SystemConf) : TokioResolver :=
  let builder :=
    match resolverBuilder sys with
    | .ok b => b
    | .error _ => resolverBuilderWithConfig ResolverConfig.default
  let builder := applyOptsStmt builder self.opts
  builder.build

/-! ## The `OnceLock` cell

`state.get_or_init(f)` is a linearizable atomic operation on the shared
cell: under concurrency every call observes the cell atomically, the first
call to find it empty runs its closure under the lock and publishes the
result, and every interleaving of calls is therefore some sequence of these
atomic steps.  A concurrent execution is modelled as the list of calls in
linearization order, each carrying the value its closure would construct
(for `resolve`, `hickory_resolver.init_resolver()`, which depends only on
the calling handle, never on the cell). -/

/-- `OnceLock::get_or_init` as one atomic step: the observed value and the
cell contents afterwards. -/
def onceLockGetOrInit {α : Type} (cell : Option α) (mk : α) : α × Option α :=
  match cell with
  | some v => (v, some v)
  | none => (mk, some mk)

/-- Run a linearized sequence of `get_or_init` calls (each with the value its
initialization closure would construct), returning the list of observed
values and the final cell contents. -/
def runCalls {α : Type} : Option α → List α → List α × Option α
  | cell, [] => ([], cell)
  | cell, mk :: rest =>
    let step := onceLockGetOrInit cell mk
    let tail := runCalls step.2 rest
    (step.1 :: tail.1, tail.2)

/-- The sequence of cell contents after each call of a linearized sequence. -/
def cellStates {α : Type} : Option α → List α → List (Option α)
  | _, [] => []
  | cell, mk :: rest =>
    let step := onceLockGetOrInit cell mk
    step.2 :: cellStates step.2 rest

/-! ## The shuffle

`rand`'s `SliceRandom::shuffle` is the decreasing Fisher-Yates loop: for
`i` from `len - 1` down to `1`, swap positions `i` and `random_range(..=i)`.
The vector of length `n` is modelled as a function `Fin n → α`, a swap of
positions `i, j` as composition with `Equiv.swap i j`, and the random draws
as a choice vector `c` assigning to each index `i` a value in `0..=i`. -/

/-- Apply a list of position swaps to an array, first step first:
`self.swap(i, j)` sends the array `a` to `a ∘ Equiv.swap i j`. -/
def fyAux {α : Type} {n : ℕ} (a : Fin n → α) (steps : List (Fin n × Fin n)) :
    Fin n → α :=
  steps.foldl (fun b p => b ∘ (Equiv.swap p.1 p.2)) a

/-- The permutation of positions enacted by a list of swaps, first step
first (so the resulting array is the original composed with it). -/
def fyPermAux {n : ℕ} (steps : List (Fin n × Fin n)) : Equiv.Perm (Fin n) :=
  steps.foldl (fun σ p => σ * Equiv.swap p.1 p.2) 1

/-- The last draw of a choice vector over `Fin (n + 1)`, as an element of
`Fin (n + 1)` (the bound `(Fin.last n).val + 1 = n + 1` made explicit). -/
def lastChoice {n : ℕ} (c : ∀ i : Fin (n + 1), Fin (i.1 + 1)) : Fin (n + 1) :=
  ⟨(c (Fin.last n)).1, (c (Fin.last n)).2⟩

/-- Restriction of a choice vector to the indices below the last. -/
def restrictChoices {n : ℕ} (c : ∀ i : Fin (n + 1), Fin (i.1 + 1)) (i : Fin n) :
    Fin (i.1 + 1) :=
  ⟨(c i.castSucc).1, (c i.castSucc).2⟩

/-- The swap steps performed by `shuffle` on a slice of length `n` with draws
`c`: `(i, c i)` for `i` from `n - 1` down to `1` (the loop `(1..len).rev()`
is empty for `n ≤ 1`). -/
def stepsOf : (n : ℕ) → (∀ i : Fin n, Fin (i.1 + 1)) → List (Fin n × Fin n)
  | 0, _ => []
  | 1, _ => []
  | n + 2, c =>
    (Fin.last (n + 1), lastChoice c) ::
      (stepsOf (n + 1) (restrictChoices c)).map fun p => (p.1.castSucc, p.2.castSucc)

/-- The permutation of positions enacted by a full Fisher-Yates pass with
draws `c`. -/
def fyPerm (n : ℕ) (c : ∀ i : Fin n, Fin (i.1 + 1)) : Equiv.Perm (Fin n) :=
  fyPermAux (stepsOf n c)

/-- `ips.shuffle(rng)` on an array `a` of length `n` with draws `c`. -/
def fyShuffle {α : Type} {n : ℕ} (a : Fin n → α) (c : ∀ i : Fin n, Fin (i.1 + 1)) :
    Fin n → α :=
  fyAux a (stepsOf n c)

/-- The draws `shuffle` makes from a `SmallRng` on a slice of length `n`:
one `random_range(..=i)` per index `i` from `n - 1` down to `1`, in that
order, plus the final generator state.  For `i = 0` the value is the only
element of `Fin 1`; no draw is consumed (the loop stops at `1`). -/
def genChoices : (n : ℕ) → SmallRng → (∀ i : Fin n, Fin (i.1 + 1)) × SmallRng
  | 0, g => (fun i => i.elim0, g)
  | 1, g => (fun _ => ⟨0, Nat.succ_pos _⟩, g)
  | n + 2, g =>
    let draw := SmallRng.randRangeLe g (n + 1)
    let rest := genChoices (n + 1) draw.2
    (fun i =>
      if h : i.1 < n + 1 then rest.1 ⟨i.1, h⟩
      else
        ⟨draw.1.1, by
          have h1 : i.1 ≤ n + 1 := Nat.lt_succ_iff.mp i.isLt
          have h2 : draw.1.1 < n + 2 := draw.1.isLt
          omega⟩,
      rest.2)

/-! ## `Resolve::resolve` -/

/-- `hickory_resolver.state.get_or_init(|| hickory_resolver.init_resolver())`:
obtain the underlying resolver from the shared cell, constructing it from
the calling handle on first use.  Returns the resolver used and the cell
contents afterwards. -/
def HickoryResolver.obtainResolver (self : HickoryResolver)
    (cell : Option TokioResolver) (sys : Except Unit SystemConf) :
    TokioResolver × Option TokioResolver :=
  onceLockGetOrInit cell (self.init_resolver sys)

/-- Decidable equality for `Except`, so outcomes can be compared by
evaluation. -/
instance instDecEqExcept {ε α : Type} [DecidableEq ε] [DecidableEq α] :
    DecidableEq (Except ε α) := fun x y =>
  match x, y with
  | .error e, .error f =>
    if h : e = f then .isTrue (by rw [h])
    else .isFalse fun hc => h (by cases hc; rfl)
  | .error _, .ok _ => .isFalse fun hc => Except.noConfusion hc
  | .ok _, .error _ => .isFalse fun hc => Except.noConfusion hc
  | .ok a, .ok b =>
    if h : a = b then .isTrue (by rw [h])
    else .isFalse fun hc => h (by cases hc; rfl)

/-- Everything one `resolve` call produces: the value returned to the caller,
the contents of the shared cell afterwards, and the state of the handle the
method was invoked on afterwards (`resolve` takes `&self` and does all its
mutation on a clone, so the handle itself is returned unchanged — recorded
explicitly so that this is a theorem, not a convention). -/
structure ResolveOutcome where
  result : Except ResolveError (List SocketAddr)
  cell : Option TokioResolver
  self : HickoryResolver
deriving DecidableEq

/-- `<HickoryResolver as Resolve>::resolve`:

```rust
fn resolve(&self, name: Name) -> Resolving {
    let mut hickory_resolver = self.clone();
    Box::pin(async move {
        let resolver = hickory_resolver
            .state
            .get_or_init(|| hickory_resolver.init_resolver());
        let lookup = resolver.lookup_ip(name.as_str()).await?;
        let addrs: Addrs = if let Some(rng) = &mut hickory_resolver.rng {
            use rand::seq::SliceRandom;
            let mut ips = lookup.into_iter().collect::<Vec<_>>();
            ips.shuffle(rng);
            Box::new(ips.into_iter().map(|addr| SocketAddr::new(addr, 0)))
        } else {
            Box::new(lookup.into_iter().map(|addr| SocketAddr::new(addr, 0)))
        };
        Ok(addrs)
    })
}
```

`cell` is the shared `OnceLock` contents when the call runs, `sys` the
outcome of system configuration discovery should construction happen, and
`lookup` the behaviour of `resolver.lookup_ip(name)` for the resolved name
(an opaque external function of the resolver).  The clone's `rng` is
advanced by the shuffle and then dropped with the clone; the original
handle is untouched. -/
def HickoryResolver.resolveModel (self : HickoryResolver)
    (cell : Option TokioResolver) (sys : Except Unit SystemConf)
    (lookup : TokioResolver → Except LookupError (List IpAddr)) : ResolveOutcome :=
  -- let mut hickory_resolver = self.clone();
  let hr := self
  let step := hr.obtainResolver cell sys
  let resolver := step.1
  match lookup resolver with
  | .error e => { result := .error (.lookup e), cell := step.2, self := self }
  | .ok lookupIps =>
    match hr.rng with
    | some rng =>
      -- let mut ips = lookup.into_iter().collect::<Vec<_>>(); ips.shuffle(rng);
      let n := lookupIps.length
      let cs := genChoices n rng
      let ips := List.ofFn (fyShuffle (fun k => lookupIps.get k) cs.1)
      { result := .ok (ips.map fun addr => SocketAddr.mk addr 0),
        cell := step.2, self := self }
    | none =>
      { result := .ok (lookupIps.map fun addr => SocketAddr.mk addr 0),
        cell := step.2, self := self }

/-! ## Lemmas about the cell -/

/-- Once the cell is filled with `v`, every later call observes `v` and the
cell keeps `v`. -/
theorem runCalls_filled {α : Type} (v : α) (calls : List α) :
    runCalls (some v) calls = (calls.map fun _ => v, some v) := by
  induction calls with
  | nil => rfl
  | cons mk rest ih => simp [runCalls, onceLockGetOrInit, ih]

/-- Once the cell is filled with `v`, it stays at `v` after every later call. -/
theorem cellStates_filled {α : Type} (v : α) (calls : List α) :
    cellStates (some v) calls = calls.map fun _ => some v := by
  induction calls with
  | nil => rfl
  | cons mk rest ih => simp [cellStates, onceLockGetOrInit, ih]

/-- A constant run of states is a chain for the once-transition relation. -/
theorem chain_const {α : Type} (v : α) (l : List α) :
    List.Chain' (fun s s' : Option α => s = none ∨ s' = s)
      (some v :: l.map fun _ => some v) := by
  induction l with
  | nil => simp
  | cons b rest ih =>
    simp only [List.map_cons]
    exact List.chain'_cons.mpr ⟨Or.inr rfl, ih⟩

/-! ## Lemmas about the shuffle -/

/-- Prepending a swap to a swap list multiplies its permutation on the left. -/
theorem foldl_mul_swap {n : ℕ} (x y : Equiv.Perm (Fin n)) (l : List (Fin n × Fin n)) :
    l.foldl (fun σ p => σ * Equiv.swap p.1 p.2) (x * y) =
      x * l.foldl (fun σ p => σ * Equiv.swap p.1 p.2) y := by
  induction l generalizing y with
  | nil => rfl
  | cons p rest ih =>
    simp only [List.foldl_cons, mul_assoc]
    exact ih _

/-- `fyPermAux` on a cons. -/
theorem fyPermAux_cons {n : ℕ} (p : Fin n × Fin n) (l : List (Fin n × Fin n)) :
    fyPermAux (p :: l) = Equiv.swap p.1 p.2 * fyPermAux l := by
  have h : (1 : Equiv.Perm (Fin n)) * Equiv.swap p.1 p.2 =
      Equiv.swap p.1 p.2 * 1 := by simp
  simp only [fyPermAux, List.foldl_cons, h, foldl_mul_swap]

/-- Applying the swap list to the array is composing with its permutation. -/
theorem fyAux_eq_comp {α : Type} {n : ℕ} (steps : List (Fin n × Fin n))
    (a : Fin n → α) : fyAux a steps = a ∘ (fyPermAux steps) := by
  induction steps generalizing a with
  | nil => funext x; simp [fyAux, fyPermAux]
  | cons p rest ih =>
    have h1 : fyAux a (p :: rest) = fyAux (a ∘ (Equiv.swap p.1 p.2)) rest := rfl
    rw [h1, ih, fyPermAux_cons]
    funext x
    simp [Function.comp, Equiv.Perm.mul_apply]

/-- Swaps among the first `n` positions act on those positions exactly as
their uncast versions do. -/
theorem fyPermAux_map_castSucc_apply {n : ℕ} (steps : List (Fin n × Fin n))
    (x : Fin n) :
    fyPermAux (steps.map fun p => (p.1.castSucc, p.2.castSucc)) x.castSucc =
      (fyPermAux steps x).castSucc := by
  induction steps generalizing x with
  | nil => simp [fyPermAux]
  | cons p rest ih =>
    simp only [List.map_cons, fyPermAux_cons, Equiv.Perm.mul_apply, ih]
    exact (Fin.castSucc_injective n).swap_apply p.1 p.2 (fyPermAux rest x)

/-- Swaps among the first `n` positions fix the last position. -/
theorem fyPermAux_map_castSucc_last {n : ℕ} (steps : List (Fin n × Fin n)) :
    fyPermAux (steps.map fun p => (p.1.castSucc, p.2.castSucc)) (Fin.last n) =
      Fin.last n := by
  induction steps with
  | nil => simp [fyPermAux]
  | cons p rest ih =>
    simp only [List.map_cons, fyPermAux_cons, Equiv.Perm.mul_apply, ih]
    exact Equiv.swap_apply_of_ne_of_ne (Fin.castSucc_lt_last p.1).ne'
      (Fin.castSucc_lt_last p.2).ne'

/-- The Fisher-Yates permutation sends the last position to the last draw:
the draw for the highest index is recoverable from the permutation. -/
theorem fyPerm_apply_last {n : ℕ} (c : ∀ i : Fin (n + 2), Fin (i.1 + 1)) :
    fyPerm (n + 2) c (Fin.last (n + 1)) = lastChoice c := by
  simp only [fyPerm, stepsOf, fyPermAux_cons, Equiv.Perm.mul_apply,
    fyPermAux_map_castSucc_last, Equiv.swap_apply_left]

/-- The Fisher-Yates permutation on `n + 2` elements decomposes into the
last swap and the castSucc-lifted remainder. -/
theorem fyPerm_succ_succ {n : ℕ} (c : ∀ i : Fin (n + 2), Fin (i.1 + 1)) :
    fyPerm (n + 2) c =
      Equiv.swap (Fin.last (n + 1)) (lastChoice c) *
        fyPermAux ((stepsOf (n + 1) (restrictChoices c)).map
          fun p => (p.1.castSucc, p.2.castSucc)) := by
  simp only [fyPerm, stepsOf, fyPermAux_cons]

/-- Distinct draw vectors yield distinct Fisher-Yates permutations. -/
theorem fyPerm_injective (n : ℕ) : Function.Injective (fyPerm n) := by
  induction n with
  | zero =>
    intro c c' _
    funext i
    exact i.elim0
  | succ m ih =>
    cases m with
    | zero =>
      intro c c' _
      funext i
      have hi : i.1 = 0 := Nat.lt_one_iff.mp i.isLt
      have h1 : (c i).1 = 0 := by have := (c i).isLt; omega
      have h2 : (c' i).1 = 0 := by have := (c' i).isLt; omega
      exact Fin.ext (h1.trans h2.symm)
    | succ k =>
      intro c c' h
      have hlast : lastChoice c = lastChoice c' := by
        have h0 := congrArg (fun σ : Equiv.Perm (Fin (k + 2)) =>
          σ (Fin.last (k + 1))) h
        simpa [fyPerm_apply_last] using h0
      have hcancel : fyPermAux ((stepsOf (k + 1) (restrictChoices c)).map
            fun p => (p.1.castSucc, p.2.castSucc)) =
          fyPermAux ((stepsOf (k + 1) (restrictChoices c')).map
            fun p => (p.1.castSucc, p.2.castSucc)) := by
        have h2 := h
        rw [fyPerm_succ_succ, fyPerm_succ_succ, hlast] at h2
        exact mul_left_cancel h2
      have htail : fyPerm (k + 1) (restrictChoices c) =
          fyPerm (k + 1) (restrictChoices c') := by
        apply Equiv.ext
        intro x
        have hx := congrArg (fun σ : Equiv.Perm (Fin (k + 2)) =>
          σ x.castSucc) hcancel
        simp only [fyPermAux_map_castSucc_apply] at hx
        exact Fin.castSucc_injective _ hx
      have hrc := ih htail
      funext i
      refine Fin.lastCases ?_ ?_ i
      · exact Fin.ext (congrArg Fin.val hlast)
      · intro j
        exact Fin.ext (congrArg (fun f => (f j).1) hrc)

/-- There are exactly `n !` draw vectors for a pass over `n` elements. -/
theorem card_choices (n : ℕ) :
    Fintype.card (∀ i : Fin n, Fin (i.1 + 1)) = Nat.factorial n := by
  rw [Fintype.card_pi]
  simp only [Fintype.card_fin]
  rw [Fin.prod_univ_eq_prod_range (fun i => i + 1) n]
  exact Finset.prod_range_add_one_eq_factorial n

/-- The Fisher-Yates pass is a bijection from draw vectors onto the
permutations of the positions: uniform independent draws induce the uniform
distribution on permutations (each permutation arises from exactly one draw
vector). -/
theorem fyPerm_bijective (n : ℕ) : Function.Bijective (fyPerm n) := by
  rw [Fintype.bijective_iff_injective_and_card]
  refine ⟨fyPerm_injective n, ?_⟩
  rw [card_choices, Fintype.card_perm, Fintype.card_fin]

/-- Mapping `finRange` through a permutation of `Fin n` permutes it. -/
theorem map_perm_finRange {n : ℕ} (σ : Equiv.Perm (Fin n)) :
    ((List.finRange n).map σ).Perm (List.finRange n) := by
  apply List.perm_of_nodup_nodup_toFinset_eq
  · exact (List.nodup_finRange n).map σ.injective
  · exact List.nodup_finRange n
  · ext x
    simp only [List.mem_toFinset, List.mem_map, List.mem_finRange, true_and,
      iff_true]
    exact ⟨σ.symm x, σ.apply_symm_apply x⟩

/-- Reading an array along a permutation of positions permutes its entries. -/
theorem ofFn_comp_perm {α : Type} {n : ℕ} (a : Fin n → α)
    (σ : Equiv.Perm (Fin n)) : (List.ofFn (a ∘ σ)).Perm (List.ofFn a) := by
  rw [List.ofFn_eq_map, List.ofFn_eq_map]
  have h : (List.finRange n).map (a ∘ σ) = ((List.finRange n).map σ).map a := by
    rw [List.map_map]
  rw [h]
  exact (map_perm_finRange σ).map a

/-- The shuffled array holds a permutation of the original entries. -/
theorem fyShuffle_perm {α : Type} {n : ℕ} (a : Fin n → α)
    (c : ∀ i : Fin n, Fin (i.1 + 1)) :
    (List.ofFn (fyShuffle a c)).Perm (List.ofFn a) := by
  rw [fyShuffle, fyAux_eq_comp]
  exact ofFn_comp_perm a (fyPermAux (stepsOf n c))

/-! ## Reduction lemmas for `resolveModel` -/

/-- The options statement of `init_resolver` never changes the builder: the
`mem::replace` acts on the temporary holding the `&mut` reference, not on
the builder's options place. -/
theorem applyOptsStmt_eq (b : ResolverBuilder) (o : Option ResolverOpts) :
    applyOptsStmt b o = b := by
  cases o <;> rfl

/-- `resolve` mutates only its clone: the handle it was called on is
unchanged, whatever happens. -/
theorem resolveModel_self (r : HickoryResolver) (cell : Option TokioResolver)
    (sys : Except Unit SystemConf)
    (lookup : TokioResolver → Except LookupError (List IpAddr)) :
    (r.resolveModel cell sys lookup).self = r := by
  cases h : lookup (r.obtainResolver cell sys).1 <;> cases hr : r.rng <;>
    simp [HickoryResolver.resolveModel, h, hr]

/-- Reduction of `resolveModel` on a failed lookup. -/
theorem resolveModel_error (r : HickoryResolver) (cell : Option TokioResolver)
    (sys : Except Unit SystemConf)
    (lookup : TokioResolver → Except LookupError (List IpAddr)) (e : LookupError)
    (h : lookup (r.obtainResolver cell sys).1 = .error e) :
    r.resolveModel cell sys lookup =
      { result := .error (.lookup e), cell := (r.obtainResolver cell sys).2,
        self := r } := by
  simp [HickoryResolver.resolveModel, h]

/-- Reduction of `resolveModel` on a successful lookup without shuffling. -/
theorem resolveModel_ok_plain (r : HickoryResolver) (cell : Option TokioResolver)
    (sys : Except Unit SystemConf)
    (lookup : TokioResolver → Except LookupError (List IpAddr))
    (ips : List IpAddr) (hrng : r.rng = none)
    (h : lookup (r.obtainResolver cell sys).1 = .ok ips) :
    r.resolveModel cell sys lookup =
      { result := .ok (ips.map fun addr => SocketAddr.mk addr 0),
        cell := (r.obtainResolver cell sys).2, self := r } := by
  simp [HickoryResolver.resolveModel, h, hrng]

/-- Reduction of `resolveModel` on a successful lookup with shuffling. -/
theorem resolveModel_ok_shuffle (r : HickoryResolver) (cell : Option TokioResolver)
    (sys : Except Unit SystemConf)
    (lookup : TokioResolver → Except LookupError (List IpAddr))
    (ips : List IpAddr) (g : SmallRng) (hrng : r.rng = some g)
    (h : lookup (r.obtainResolver cell sys).1 = .ok ips) :
    r.resolveModel cell sys lookup =
      { result := .ok ((List.ofFn (fyShuffle (fun k => ips.get k)
          (genChoices ips.length g).1)).map fun addr => SocketAddr.mk addr 0),
        cell := (r.obtainResolver cell sys).2, self := r } := by
  simp [HickoryResolver.resolveModel, h, hrng]

/-- Mapping an IP list to socket addresses and back is the identity. -/
theorem map_mk_map_ip (l : List IpAddr) :
    (l.map fun addr => SocketAddr.mk addr 0).map SocketAddr.ip = l := by
  induction l with
  | nil => rfl
  | cons a rest ih => simp [ih]

/-- Every socket address produced by the port-0 mapping has port 0. -/
theorem mem_map_mk_port (l : List IpAddr) (a : SocketAddr)
    (ha : a ∈ l.map fun addr => SocketAddr.mk addr 0) : a.port = 0 := by
  rcases List.mem_map.mp ha with ⟨x, _, rfl⟩
  rfl

/-! ## The claims -/

/-- **C1.** For every sequence of concurrent first-time resolve calls on one
handle (clones included: every call carries its own handle fields and its own
discovery outcome but all share the one cell), taken in linearization order
of the atomic `get_or_init` step: the shared cell transitions at most once
from empty to filled — never from filled to empty nor from filled to a
different value — and every caller observes one and the same constructed
resolver instance. -/
theorem c1_once_construction
    (calls : List (HickoryResolver × Except Unit SystemConf)) :
    List.Chain' (fun s s' : Option TokioResolver => s = none ∨ s' = s)
      (none :: cellStates none (calls.map fun pc => pc.1.init_resolver pc.2)) ∧
    ∀ o ∈ (runCalls none (calls.map fun pc => pc.1.init_resolver pc.2)).1,
      ∀ o' ∈ (runCalls none (calls.map fun pc => pc.1.init_resolver pc.2)).1,
        o = o' := by
  cases hm : calls.map fun pc => pc.1.init_resolver pc.2 with
  | nil =>
    refine ⟨?_, ?_⟩
    · simp [cellStates]
    · simp [runCalls]
  | cons mk rest =>
    have hrun : (runCalls none (mk :: rest)).1 = mk :: (rest.map fun _ => mk) := by
      simp [runCalls, onceLockGetOrInit, runCalls_filled]
    have hmem : ∀ o ∈ mk :: (rest.map fun _ => mk), o = mk := by
      intro o ho
      rcases List.mem_cons.mp ho with h | h
      · exact h
      · rcases List.mem_map.mp h with ⟨a, _, ha⟩
        exact ha.symm
    refine ⟨?_, ?_⟩
    · have hst : cellStates none (mk :: rest) =
          some mk :: (rest.map fun _ => some mk) := by
        simp [cellStates, onceLockGetOrInit, cellStates_filled]
      rw [hst]
      exact List.chain'_cons.mpr ⟨Or.inl rfl, chain_const mk rest⟩
    · rw [hrun]
      exact fun o ho o' ho' => (hmem o ho).trans (hmem o' ho').symm

/-- Witness for C1: two concurrent first-time calls, one from a handle with
options and failing discovery, one from a default clone with succeeding
discovery; both observe the single resolver published by the first call. -/
theorem c1_once_construction_witness :
    (runCalls none (([({ opts := some ⟨3⟩ }, .error ()), ({}, .ok ⟨⟨7⟩, ⟨5⟩⟩)] :
        List (HickoryResolver × Except Unit SystemConf)).map
          fun pc => pc.1.init_resolver pc.2)).1.getD 0 ⟨⟨9⟩, ⟨9⟩⟩ =
    (runCalls none (([({ opts := some ⟨3⟩ }, .error ()), ({}, .ok ⟨⟨7⟩, ⟨5⟩⟩)] :
        List (HickoryResolver × Except Unit SystemConf)).map
          fun pc => pc.1.init_resolver pc.2)).1.getD 1 ⟨⟨9⟩, ⟨9⟩⟩ :=
  (c1_once_construction
      [({ opts := some ⟨3⟩ }, .error ()), ({}, .ok ⟨⟨7⟩, ⟨5⟩⟩)]).2
    _ (by decide) _ (by decide)

/-- **C2** fails on the code.  `init_resolver` executes
`let _ = mem::replace(&mut builder.options_mut(), &mut opt)`, which swaps the
reference held in a temporary instead of writing the builder's options, so
the caller-supplied options are silently dropped: a handle configured with
options `⟨1⟩` still builds a resolver carrying the builder's own (default)
options, and in general the constructed resolver is independent of the
handle's `opts` field. -/
theorem c2_options_not_applied :
    ((HickoryResolver.init_resolver { opts := some ⟨1⟩ } (.error ())).options =
        ResolverOpts.default ∧
      (⟨1⟩ : ResolverOpts) ≠ ResolverOpts.default) ∧
    ∀ (self : HickoryResolver) (sys : Except Unit SystemConf),
      self.init_resolver sys = HickoryResolver.init_resolver {} sys := by
  refine ⟨by decide, ?_⟩
  intro self sys
  simp [HickoryResolver.init_resolver, applyOptsStmt_eq]

/-- **C3**, counterexample.  The claim asserts `with_shuffle(true)` followed
by `with_shuffle(false)` leaves shuffling disabled; on the code
`with_shuffle(false)` is a no-op (the `if` has no `else` branch), so the
generator installed by `with_shuffle(true)` survives and shuffling stays
enabled. -/
theorem c3_counterexample :
    ((HickoryResolver.defaultHandle.with_shuffle true ⟨42⟩).with_shuffle false
        ⟨7⟩).rng = some ⟨42⟩ := by
  decide

/-- **C3**, amended: for `with_options` the last-applied options value takes
effect, and for `with_shuffle` the last-applied `true` takes effect
(installing a fresh OS-seeded generator), while `with_shuffle(false)` is a
no-op — so `with_shuffle(true)` followed by `with_shuffle(false)` leaves
shuffling enabled with the generator from the `true` call. -/
theorem c3_last_config_wins_amended (r : HickoryResolver) (o₁ o₂ : ResolverOpts)
    (g₁ g₂ : SmallRng) :
    ((r.with_options o₁).with_options o₂).opts = some o₂ ∧
    ((r.with_shuffle true g₁).with_shuffle true g₂).rng = some g₂ ∧
    ((r.with_shuffle true g₁).with_shuffle false g₂) = r.with_shuffle true g₁ := by
  refine ⟨rfl, ?_, ?_⟩ <;>
    simp [HickoryResolver.with_shuffle, HickoryResolver.with_options]

/-- **C4.** When the underlying lookup fails, `resolve` returns a failure
wrapping that underlying error (the `?` operator propagates it), and never a
successful (in particular never an empty successful) address list. -/
theorem c4_lookup_error_propagates (r : HickoryResolver)
    (cell : Option TokioResolver) (sys : Except Unit SystemConf)
    (lookup : TokioResolver → Except LookupError (List IpAddr)) (e : LookupError)
    (h : lookup (r.obtainResolver cell sys).1 = .error e) :
    (r.resolveModel cell sys lookup).result = .error (.lookup e) ∧
    ∀ l, (r.resolveModel cell sys lookup).result ≠ .ok l := by
  rw [resolveModel_error r cell sys lookup e h]
  exact ⟨rfl, fun l hc => Except.noConfusion hc⟩

/-- Witness for C4: an NXDOMAIN-style error `⟨3⟩` surfaces wrapped. -/
theorem c4_lookup_error_propagates_witness :
    (HickoryResolver.defaultHandle.resolveModel none (.error ())
        (fun _ => .error ⟨3⟩)).result = .error (.lookup ⟨3⟩) ∧
    ∀ l, (HickoryResolver.defaultHandle.resolveModel none (.error ())
        (fun _ => .error ⟨3⟩)).result ≠ .ok l :=
  c4_lookup_error_propagates HickoryResolver.defaultHandle none (.error ())
    (fun _ => .error ⟨3⟩) ⟨3⟩ rfl

/-- **C5.** Without shuffling, the addresses come back exactly in the
underlying lookup's order, each paired with port 0: the returned list is the
lookup result mapped to socket addresses, and stripping the ports gives back
the lookup result unchanged. -/
theorem c5_no_shuffle_order_preserved (r : HickoryResolver)
    (cell : Option TokioResolver) (sys : Except Unit SystemConf)
    (lookup : TokioResolver → Except LookupError (List IpAddr))
    (ips : List IpAddr) (hrng : r.rng = none)
    (h : lookup (r.obtainResolver cell sys).1 = .ok ips) :
    (r.resolveModel cell sys lookup).result =
      .ok (ips.map fun addr => SocketAddr.mk addr 0) ∧
    (ips.map fun addr => SocketAddr.mk addr 0).map SocketAddr.ip = ips := by
  rw [resolveModel_ok_plain r cell sys lookup ips hrng h]
  exact ⟨rfl, map_mk_map_ip ips⟩

/-- Witness for C5: lookup returning `[1, 2, 3]` yields them unchanged and in
order. -/
theorem c5_no_shuffle_order_preserved_witness :
    (HickoryResolver.defaultHandle.resolveModel none (.error ())
        (fun _ => .ok [1, 2, 3])).result =
      .ok ([1, 2, 3].map fun addr => SocketAddr.mk addr 0) ∧
    ([1, 2, 3].map fun addr => SocketAddr.mk addr 0).map SocketAddr.ip =
      [1, 2, 3] :=
  c5_no_shuffle_order_preserved HickoryResolver.defaultHandle none (.error ())
    (fun _ => .ok [1, 2, 3]) [1, 2, 3] rfl rfl

/-- **C6.** With shuffling enabled, `resolve` returns a permutation (same
multiset) of the looked-up addresses, and the shuffle is the unbiased
Fisher-Yates pass: the map from draw vectors (one uniform independent draw
`0..=i` per position) to permutations of the positions is a bijection, so
every permutation arises from exactly one draw vector and is equally
likely. -/
theorem c6_shuffle_unbiased_permutation (r : HickoryResolver)
    (cell : Option TokioResolver) (sys : Except Unit SystemConf)
    (lookup : TokioResolver → Except LookupError (List IpAddr))
    (ips : List IpAddr) (g : SmallRng) (hrng : r.rng = some g)
    (h : lookup (r.obtainResolver cell sys).1 = .ok ips) :
    (∃ out, (r.resolveModel cell sys lookup).result = .ok out ∧
      (out.map SocketAddr.ip).Perm ips) ∧
    ∀ n, Function.Bijective (fyPerm n) := by
  refine ⟨?_, fun n => fyPerm_bijective n⟩
  refine ⟨(List.ofFn (fyShuffle (fun k => ips.get k)
      (genChoices ips.length g).1)).map fun addr => SocketAddr.mk addr 0,
    ?_, ?_⟩
  · rw [resolveModel_ok_shuffle r cell sys lookup ips g hrng h]
  · rw [map_mk_map_ip]
    have h2 := fyShuffle_perm (fun k => ips.get k) (genChoices ips.length g).1
    rwa [List.ofFn_get] at h2

/-- Witness for C6: a seeded shuffle of `[1, 2, 3]` returns some permutation
of it. -/
theorem c6_shuffle_unbiased_permutation_witness :
    (∃ out, (HickoryResolver.resolveModel { rng := some ⟨0⟩ } none (.error ())
        (fun _ => .ok [1, 2, 3])).result = .ok out ∧
      (out.map SocketAddr.ip).Perm [1, 2, 3]) ∧
    ∀ n, Function.Bijective (fyPerm n) :=
  c6_shuffle_unbiased_permutation { rng := some ⟨0⟩ } none (.error ())
    (fun _ => .ok [1, 2, 3]) [1, 2, 3] ⟨0⟩ rfl rfl

/-- **C7.** On every successful resolve, the returned socket addresses are
exactly the looked-up IP addresses (up to the order chosen by the optional
shuffle), each with port 0. -/
theorem c7_port_zero (r : HickoryResolver) (cell : Option TokioResolver)
    (sys : Except Unit SystemConf)
    (lookup : TokioResolver → Except LookupError (List IpAddr))
    (ips : List IpAddr)
    (h : lookup (r.obtainResolver cell sys).1 = .ok ips) :
    ∃ ipsOut : List IpAddr, ipsOut.Perm ips ∧
      (r.resolveModel cell sys lookup).result =
        .ok (ipsOut.map fun addr => SocketAddr.mk addr 0) ∧
      ∀ a ∈ ipsOut.map fun addr => SocketAddr.mk addr 0, a.port = 0 := by
  cases hrng : r.rng with
  | none =>
    exact ⟨ips, List.Perm.refl ips,
      by rw [resolveModel_ok_plain r cell sys lookup ips hrng h],
      mem_map_mk_port ips⟩
  | some g =>
    refine ⟨List.ofFn (fyShuffle (fun k => ips.get k)
        (genChoices ips.length g).1), ?_,
      by rw [resolveModel_ok_shuffle r cell sys lookup ips g hrng h],
      mem_map_mk_port _⟩
    have h2 := fyShuffle_perm (fun k => ips.get k) (genChoices ips.length g).1
    rwa [List.ofFn_get] at h2

/-- Witness for C7: addresses `192.0.2.1`-style values `10` and `20` come
back as socket addresses with port 0. -/
theorem c7_port_zero_witness :
    ∃ ipsOut : List IpAddr, ipsOut.Perm [10, 20] ∧
      (HickoryResolver.defaultHandle.resolveModel none (.error ())
          (fun _ => .ok [10, 20])).result =
        .ok (ipsOut.map fun addr => SocketAddr.mk addr 0) ∧
      ∀ a ∈ ipsOut.map fun addr => SocketAddr.mk addr 0, a.port = 0 :=
  c7_port_zero HickoryResolver.defaultHandle none (.error ())
    (fun _ => .ok [10, 20]) [10, 20] rfl

/-- **C8.** Once the cell holds a constructed resolver `v`, every later
resolve on the same handle or any clone — with any options, any shuffle
configuration, and any discovery outcome — obtains exactly `v` with no
construction work (the outcome does not depend on the construction inputs at
all), and the cell still holds `v` afterwards. -/
theorem c8_filled_cell_reused (r r' : HickoryResolver) (v : TokioResolver)
    (sys sys' : Except Unit SystemConf)
    (lookup : TokioResolver → Except LookupError (List IpAddr)) :
    r.obtainResolver (some v) sys = (v, some v) ∧
    r'.obtainResolver (some v) sys' = (v, some v) ∧
    (r.resolveModel (some v) sys lookup).cell = some v ∧
    r.resolveModel (some v) sys lookup = r.resolveModel (some v) sys' lookup := by
  refine ⟨rfl, rfl, ?_, rfl⟩
  cases h : lookup v with
  | error e =>
    simp [HickoryResolver.resolveModel, HickoryResolver.obtainResolver,
      onceLockGetOrInit, h]
  | ok ips =>
    cases hr : r.rng <;>
      simp [HickoryResolver.resolveModel, HickoryResolver.obtainResolver,
        onceLockGetOrInit, h, hr]

/-- **C9** fails on the code in one respect.  Construction does attempt
system discovery first, falls back to the hard-coded default configuration
exactly when discovery fails, and is total (it cannot fail at all, in
particular never for missing system configuration); but the fallback does
*not* merge the caller-supplied options — the `mem::replace` slip drops
them, so the fallback resolver carries default options even when the caller
supplied options `⟨5⟩`. -/
theorem c9_fallback_behavior :
    (∀ (self : HickoryResolver) (s : SystemConf),
      self.init_resolver (.ok s) = ⟨s.config, s.options⟩) ∧
    (∀ self : HickoryResolver,
      self.init_resolver (.error ()) =
        ⟨ResolverConfig.default, ResolverOpts.default⟩) ∧
    (HickoryResolver.init_resolver { opts := some ⟨5⟩ } (.error ())).options ≠
      ⟨5⟩ := by
  refine ⟨?_, ?_, by decide⟩ <;>
    intro self <;>
    simp [HickoryResolver.init_resolver, applyOptsStmt_eq, resolverBuilder,
      resolverBuilderWithConfig, ResolverBuilder.build, Except.map]

/-- **C10.** The shuffle is deterministic in the handle's stored generator
state: `resolve` works on a clone, so the original handle (its generator
included) is unchanged by a call, and a second call on the same handle whose
lookup returns the same address list produces the identical address order. -/
theorem c10_shuffle_deterministic_per_handle (r : HickoryResolver)
    (cell : Option TokioResolver) (sys : Except Unit SystemConf)
    (lookup lookup2 : TokioResolver → Except LookupError (List IpAddr))
    (g : SmallRng) (ips : List IpAddr) (hrng : r.rng = some g)
    (h1 : lookup (r.obtainResolver cell sys).1 = .ok ips)
    (h2 : lookup2 (((r.resolveModel cell sys lookup).self.obtainResolver
        (r.resolveModel cell sys lookup).cell sys).1) = .ok ips) :
    (r.resolveModel cell sys lookup).self = r ∧
    ((r.resolveModel cell sys lookup).self.resolveModel
        (r.resolveModel cell sys lookup).cell sys lookup2).result =
      (r.resolveModel cell sys lookup).result := by
  have hself : (r.resolveModel cell sys lookup).self = r :=
    resolveModel_self r cell sys lookup
  refine ⟨hself, ?_⟩
  rw [hself] at h2 ⊢
  rw [resolveModel_ok_shuffle r _ sys lookup2 ips g hrng h2,
    resolveModel_ok_shuffle r cell sys lookup ips g hrng h1]

/-- Witness for C10: two successive resolves on a seeded handle with lookup
`[1, 2]` return identical results. -/
theorem c10_shuffle_deterministic_per_handle_witness :
    (HickoryResolver.resolveModel { rng := some ⟨0⟩ } none (.error ())
        (fun _ => .ok [1, 2])).self = { rng := some ⟨0⟩ } ∧
    ((HickoryResolver.resolveModel { rng := some ⟨0⟩ } none (.error ())
        (fun _ => .ok [1, 2])).self.resolveModel
          (HickoryResolver.resolveModel { rng := some ⟨0⟩ } none (.error ())
            (fun _ => .ok [1, 2])).cell (.error ()) (fun _ => .ok [1, 2])).result =
      (HickoryResolver.resolveModel { rng := some ⟨0⟩ } none (.error ())
        (fun _ => .ok [1, 2])).result :=
  c10_shuffle_deterministic_per_handle { rng := some ⟨0⟩ } none (.error ())
    (fun _ => .ok [1, 2]) (fun _ => .ok [1, 2]) ⟨0⟩ [1, 2] rfl rfl rfl

end ReqwestHickory
